import Mathlib

/-!
# Shallow embedding of covalent's concurrent event-dispatch core

This file embeds the event-dispatch and weak-ownership subsystem of the
`covalent` engine:

* `src/covalent/src/events/event.rs` — `ListenError`, `Listener`,
  `EventHandler` with the partition-and-retry dispatcher
  (`handle_iter` / `handle`), `new_id`, `insert`;
* `src/covalent/src/scene/lock_set.rs` — the `lock_data!` macro's generated
  acquisition closure (weak upgrade, then `try_read`/`try_write`, per
  capability in declaration order);
* `src/covalent/src/scene/event.rs` — the legacy boolean dispatcher.

Modelling decisions:

* A listener's closure reads external, time-varying state (locks held by
  other threads, values dropped elsewhere).  We model that environment by
  giving the closure an extra `Nat` argument: the retry round of the
  current dispatch at which the attempt is made.  Within one round all
  attempts see the same environment; a retry in the next round may see a
  different one.
* The Rust recursion in `handle_iter` need not terminate (a perpetually
  contended lock retries forever), so the Lean `handle_iter` takes explicit
  fuel and returns `Option`; `none` models the non-terminating dispatch.
* `HashMap<ListenerID, Listener>` is modelled as a list of listeners keyed
  by their `id` field (the code only ever inserts a listener under its own
  id); `insert` replaces the entry with an equal id or appends, matching
  `HashMap::insert` keyed by `l.id`.  Iteration order of a `HashMap` is
  unspecified, and no claim here depends on the list order.
* `i64` identifiers are modelled as `Int`, with the increment in `new_id`
  wrapping at the `i64` bounds through an explicit `% 2 ^ 64` (`wrapI64`),
  as `next_id += 1` does in the source's release profile; the debug
  profile aborts at `i64::MAX` instead, so behaviour past that bound is at
  best the wrap modelled here and at worst a crash — either way not a
  continuation of the unbounded count.
* The marker trait `Event: Send + Sync` has no semantic content and is
  dropped; `E` is an arbitrary type.
-/

/-- `type ListenerID = i64` (`events/event.rs`). -/
abbrev ListenerID := Int

/-- `enum ListenError` (`events/event.rs` lines 8–17): the two failure kinds
a listener attempt can produce. -/
inductive ListenError where
  | requirementDeleted
  | lockUnavailable
deriving DecidableEq, Repr

/-- The outcome of one listener attempt: `Result<(), ListenError>`. -/
inductive ListenResult where
  | ok
  | err (e : ListenError)
deriving DecidableEq, Repr

/-- `Listener<E>` (`events/event.rs` lines 25–34): an id plus the boxed
closure.  The extra `Nat` argument is the dispatch round at which the
attempt happens; it stands for the external lock/ownership environment the
Rust closure reads through its captured `Weak` references. -/
structure Listener (E : Type) where
  id : ListenerID
  func : E → Nat → ListenResult

/-- `EventHandler<E>` (`events/event.rs` lines 54–57). -/
structure EventHandler (E : Type) where
  next_id : ListenerID
  set : List (Listener E)

/-- `impl Default for EventHandler` (`events/event.rs` lines 59–67). -/
def EventHandler.mkDefault (E : Type) : EventHandler E :=
  { next_id := 0, set := [] }

/-- Reduce an integer to the `i64` range `[-2 ^ 63, 2 ^ 63 - 1]` the way
two's-complement arithmetic does: the identity inside the range, a wrap
outside it. -/
def wrapI64 (n : Int) : Int :=
  (n + 2 ^ 63) % 2 ^ 64 - 2 ^ 63

/-- `EventHandler::new_id` (`events/event.rs` lines 71–75): return the
current counter and bump it.  Rust mutates `self`; we return the id and the
updated handler.  `next_id` is an `i64`, so `next_id += 1` wraps at
`i64::MAX` in the source's release profile (the debug profile aborts
there). -/
def EventHandler.new_id {E : Type} (h : EventHandler E) : ListenerID × EventHandler E :=
  (h.next_id, { h with next_id := wrapI64 (h.next_id + 1) })

/-- `HashMap::insert(l.id, l)`: replace the entry whose key equals `l.id`,
or add a new entry. -/
def insertListener {E : Type} (l : Listener E) : List (Listener E) → List (Listener E)
  | [] => [l]
  | x :: xs => if x.id = l.id then l :: xs else x :: insertListener l xs

/-- `EventHandler::insert` (`events/event.rs` lines 77–79). -/
def EventHandler.insert {E : Type} (h : EventHandler E) (l : Listener E) : EventHandler E :=
  { h with set := insertListener l h.set }

/-- The `Either::Left` test of the `partition_map` in `handle_iter`:
this attempt hit `LockUnavailable`, so the listener is retried. -/
def isRetry : ListenResult → Bool
  | .err .lockUnavailable => true
  | _ => false

/-- The `Either::Right` test of the `partition_map` in `handle_iter`:
this attempt hit `RequirementDeleted`, so the listener is removed. -/
def isRemove : ListenResult → Bool
  | .err .requirementDeleted => true
  | _ => false

/-- `EventHandler::handle_iter` (`events/event.rs` lines 82–109).  One call
attempts every listener in `to_try` against `e` (the `filter_map` keeps the
failures, the `partition_map` splits them into retries and removals), then
recurses on the retries and appends their removal ids after this round's.
`round` is the environment clock (this round's attempts evaluate
`l.func e round`); `fuel` bounds the number of rounds, since the Rust
recursion has no bound of its own: `none` models non-termination. -/
def handle_iter {E : Type} (e : E) : Nat → Nat → List (Listener E) → Option (List ListenerID)
  | 0, _, _ => none
  | fuel + 1, round, to_try =>
    if (to_try.filter fun l => isRetry (l.func e round)).isEmpty then
      some ((to_try.filter fun l => isRemove (l.func e round)).map (·.id))
    else
      (handle_iter e fuel (round + 1) (to_try.filter fun l => isRetry (l.func e round))).map
        fun more => ((to_try.filter fun l => isRemove (l.func e round)).map (·.id)) ++ more

/-- The removal loop of `EventHandler::handle`:
`for k in ids { self.set.remove(&k) }`. -/
def removeIds {E : Type} (set : List (Listener E)) (ids : List ListenerID) : List (Listener E) :=
  ids.foldl (fun s i => s.filter fun l => l.id ≠ i) set

/-- `EventHandler::handle` (`events/event.rs` lines 112–116): run the rounds
over the whole listener set, then delete every returned id. -/
def EventHandler.handle {E : Type} (h : EventHandler E) (e : E) (fuel : Nat) :
    Option (EventHandler E) :=
  (handle_iter e fuel 0 h.set).map fun ids => { h with set := removeIds h.set ids }

/-- Declarative round description: the set of listeners attempted at each
round of a dispatch that starts from listener list `L`.  Round 0 attempts
everything; round `r + 1` attempts exactly the round-`r` listeners whose
round-`r` attempt hit `LockUnavailable`. -/
def roundSet {E : Type} (e : E) (L : List (Listener E)) : Nat → List (Listener E)
  | 0 => L
  | r + 1 => (roundSet e L r).filter fun l => isRetry (l.func e r)

/-- Boolean membership for id lists (mirrors `Vec::contains` on ids). -/
def idMem (i : ListenerID) : List ListenerID → Bool
  | [] => false
  | x :: xs => i = x || idMem i xs

/-! ## The `lock_data!` capability-acquisition model (`scene/lock_set.rs`)

The macro generates, per declared field, `Weak::upgrade` followed by
`try_read` (for a `read` field) or `try_write` (for a `write` field),
nested in declaration order; the user callback is called innermost with one
guard reference per field in declaration order.  We model one declared
capability as its mode plus the current state of its backing value:
`none` when the strong owner has been dropped (`upgrade` fails), or the
`RwLock`'s lock state together with the protected value. -/

/-- `read` / `write` field annotation of `lock_data!`. -/
inductive Mode where
  | read
  | write
deriving DecidableEq, Repr

/-- State of a `std::sync::RwLock` as seen by a non-blocking acquisition. -/
inductive LockState where
  | free
  | readLocked (n : Nat)
  | writeLocked
deriving DecidableEq, Repr

/-- `try_read` succeeds unless a writer holds the lock; `try_write`
succeeds only when the lock is free. -/
def tryAcquire : Mode → LockState → Bool
  | .read, .writeLocked => false
  | .read, _ => true
  | .write, .free => true
  | .write, _ => false

/-- One declared field of a `lock_data!` bundle at the moment of an
attempt: its declared mode and its backing value (`none` when the weak
reference can no longer upgrade). -/
structure Capability (α : Type) where
  mode : Mode
  target : Option (LockState × α)

/-- This capability's upgrade and try-lock both succeed. -/
def capOk {α : Type} (c : Capability α) : Bool :=
  match c.target with
  | none => false
  | some (s, _) => tryAcquire c.mode s

/-- The guard the callback receives for this capability (mode and borrowed
value), when acquisition succeeds. -/
def capGuard {α : Type} (c : Capability α) : Option (Mode × α) :=
  c.target.map fun sv => (c.mode, sv.2)

/-- The nested `@ generate locks` expansion of `lock_data!`
(`scene/lock_set.rs` lines 83–155): walk the fields in declaration order;
a failed upgrade yields `RequirementDeleted`, a failed try-lock yields
`LockUnavailable`, each without touching later fields; on full success
return the guards in declaration order. -/
def acquireAll {α : Type} : List (Capability α) → Except ListenError (List (Mode × α))
  | [] => .ok []
  | c :: cs =>
    match c.target with
    | none => .error .requirementDeleted
    | some (s, v) =>
      if tryAcquire c.mode s then
        match acquireAll cs with
        | .ok gs => .ok ((c.mode, v) :: gs)
        | .error err => .error err
      else
        .error .lockUnavailable

/-- The whole generated closure body: acquire every capability, and only on
full success call the user callback with the event and the guards. -/
def runLockData {E α β : Type} (caps : List (Capability α))
    (cb : E → List (Mode × α) → β) (e : E) : Except ListenError β :=
  match acquireAll caps with
  | .ok gs => .ok (cb e gs)
  | .error err => .error err

/-- Forget the callback's value: the listener closure returns
`Result<(), ListenError>`. -/
def toListenResult {β : Type} : Except ListenError β → ListenResult
  | .ok _ => .ok
  | .error err => .err err

/-- The `Listener` that `lock_data!`'s generated `listen` registers
(`scene/lock_set.rs` lines 56–73): its closure runs the acquisition
protocol against the capability states prevailing at the given round.
`caps r` is the bundle's fields as they stand at round `r`. -/
def mkLockDataListener {E α : Type} (id : ListenerID) (caps : Nat → List (Capability α))
    (cb : E → List (Mode × α) → Unit) : Listener E :=
  { id := id, func := fun e r => toListenResult (runLockData (caps r) cb e) }

/-- A capability whose backing value has been destroyed: the weak upgrade
fails at every attempt. -/
def deadCap (α : Type) : Capability α :=
  { mode := .read, target := none }

/-! ## Operation sequences on a handler (for the id-allocation claims) -/

/-- The operations the handler's public interface offers. -/
inductive Op (E : Type) where
  | newIdOp
  | insertOp (l : Listener E)
  | handleOp (e : E) (fuel : Nat)

/-- Apply one operation; the second component is the id returned when the
operation was a `new_id` call.  `handle` never touches `next_id`, so a
dispatch that does not terminate (`none`) is recorded as leaving the
handler unchanged. -/
def applyOp {E : Type} (h : EventHandler E) : Op E → EventHandler E × Option ListenerID
  | .newIdOp => ((h.new_id).2, some (h.new_id).1)
  | .insertOp l => (h.insert l, none)
  | .handleOp e fuel => ((h.handle e fuel).getD h, none)

/-- Run a sequence of operations, collecting the ids returned by the
`new_id` calls in call order. -/
def runOps {E : Type} (h : EventHandler E) : List (Op E) → EventHandler E × List ListenerID
  | [] => (h, [])
  | op :: ops =>
    ((runOps (applyOp h op).1 ops).1,
      (applyOp h op).2.toList ++ (runOps (applyOp h op).1 ops).2)

/-- The number of `new_id` calls in an operation sequence — the amount the
`i64` counter advances. -/
def countNewId {E : Type} : List (Op E) → Nat
  | [] => 0
  | .newIdOp :: ops => countNewId ops + 1
  | .insertOp _ :: ops => countNewId ops
  | .handleOp _ _ :: ops => countNewId ops

/-! ## The legacy boolean dispatcher (`scene/event.rs`) -/

/-- `Listener<E>` of `scene/event.rs` lines 10–19: the closure returns
`false` exactly when the listener should be deleted. -/
structure LegacyListener (E : Type) where
  id : ListenerID
  func : E → Bool

/-- `EventHandler<E>` of `scene/event.rs` lines 39–42. -/
structure LegacyEventHandler (E : Type) where
  next_id : ListenerID
  set : List (LegacyListener E)

/-- The removal loop of the legacy `handle`. -/
def legacyRemoveIds {E : Type} (set : List (LegacyListener E)) (ids : List ListenerID) :
    List (LegacyListener E) :=
  ids.foldl (fun s i => s.filter fun l => l.id ≠ i) set

/-- Legacy `EventHandler::handle` (`scene/event.rs` lines 64–77): execute
every listener once; collect the ids of those returning `false`; remove
them. -/
def LegacyEventHandler.handle {E : Type} (h : LegacyEventHandler E) (e : E) :
    LegacyEventHandler E :=
  { h with
    set := legacyRemoveIds h.set ((h.set.filter fun l => !(l.func e)).map (·.id)) }

/-- View a retry-style listener as a legacy listener for a dispatch that
only ever reaches round 0: `true` exactly when the round-0 attempt runs the
reaction. -/
def toLegacy {E : Type} (l : Listener E) : LegacyListener E :=
  { id := l.id, func := fun e => decide (l.func e 0 = ListenResult.ok) }

/-! ## Declarative predicates about one dispatch -/

/-- The listener hits a permanent failure at some round it is attempted. -/
def permanentlyFails {E : Type} (e : E) (L : List (Listener E)) (l : Listener E) : Prop :=
  ∃ r, l ∈ roundSet e L r ∧ isRemove (l.func e r) = true

/-- The listener is attempted at round `r` and its reaction runs. -/
def succeedsAt {E : Type} (e : E) (L : List (Listener E)) (l : Listener E) (r : Nat) : Prop :=
  l ∈ roundSet e L r ∧ l.func e r = ListenResult.ok

/-! ## Concrete fixtures used by the witnesses -/

/-- Always succeeds. -/
def fOk : Unit → Nat → ListenResult := fun _ _ => .ok

/-- Its requirement is gone: permanent failure at every attempt. -/
def fDel : Unit → Nat → ListenResult := fun _ _ => .err .requirementDeleted

/-- Perpetually contended lock: recoverable failure at every attempt. -/
def fLock : Unit → Nat → ListenResult := fun _ _ => .err .lockUnavailable

/-- Contended at round 0, free afterwards. -/
def fLockThenOk : Unit → Nat → ListenResult :=
  fun _ r => if r = 0 then .err .lockUnavailable else .ok

/-- A three-listener handler: one success, one permanent failure, one
recoverable failure that succeeds on the second round. -/
def sampleHandler : EventHandler Unit :=
  { next_id := 3, set := [⟨0, fOk⟩, ⟨1, fDel⟩, ⟨2, fLockThenOk⟩] }

/-! ## Basic lemmas -/

theorem isRetry_iff (x : ListenResult) :
    isRetry x = true ↔ x = ListenResult.err ListenError.lockUnavailable := by
  cases x with
  | ok => simp [isRetry]
  | err e => cases e <;> simp [isRetry]

theorem isRemove_iff (x : ListenResult) :
    isRemove x = true ↔ x = ListenResult.err ListenError.requirementDeleted := by
  cases x with
  | ok => simp [isRemove]
  | err e => cases e <;> simp [isRemove]

theorem ok_of_not_retry_not_remove (x : ListenResult)
    (h1 : isRetry x = false) (h2 : isRemove x = false) : x = ListenResult.ok := by
  cases x with
  | ok => rfl
  | err e => cases e <;> simp [isRetry, isRemove] at h1 h2

theorem idMem_iff (i : ListenerID) (ids : List ListenerID) :
    idMem i ids = true ↔ i ∈ ids := by
  induction ids with
  | nil => simp [idMem]
  | cons x xs ih =>
    simp only [idMem, Bool.or_eq_true, decide_eq_true_eq, ih, List.mem_cons]

theorem roundSet_zero {E : Type} (e : E) (L : List (Listener E)) : roundSet e L 0 = L := rfl

theorem roundSet_succ {E : Type} (e : E) (L : List (Listener E)) (r : Nat) :
    roundSet e L (r + 1) = (roundSet e L r).filter fun l => isRetry (l.func e r) := rfl

theorem roundSet_subset {E : Type} (e : E) (L : List (Listener E)) :
    ∀ (r : Nat) (l : Listener E), l ∈ roundSet e L r → l ∈ L := by
  intro r
  induction r with
  | zero => intro l hl; exact hl
  | succ r ih => intro l hl; exact ih l (List.mem_filter.mp hl).1

theorem mem_roundSet {E : Type} (e : E) (L : List (Listener E)) (l : Listener E) :
    ∀ r : Nat, l ∈ roundSet e L r ↔ l ∈ L ∧ ∀ r' < r, isRetry (l.func e r') = true := by
  intro r
  induction r with
  | zero => rw [roundSet_zero]; simp
  | succ r ih =>
    rw [roundSet_succ, List.mem_filter, ih]
    constructor
    · rintro ⟨⟨hL, hall⟩, hr⟩
      refine ⟨hL, fun r' hr' => ?_⟩
      rcases Nat.lt_succ_iff_lt_or_eq.mp hr' with hlt | heq
      · exact hall r' hlt
      · rw [heq]; exact hr
    · rintro ⟨hL, hall⟩
      exact ⟨⟨hL, fun r' hr' => hall r' (Nat.lt_succ_of_lt hr')⟩, hall r (Nat.lt_succ_self r)⟩

theorem roundSet_empty_of_le {E : Type} (e : E) (L : List (Listener E)) {m k : Nat}
    (hm : roundSet e L m = []) (hmk : m ≤ k) : roundSet e L k = [] := by
  obtain ⟨j, rfl⟩ := Nat.exists_eq_add_of_le hmk
  clear hmk
  induction j with
  | zero => exact hm
  | succ j ih =>
    rw [show m + (j + 1) = (m + j) + 1 from rfl, roundSet_succ, ih]
    rfl

theorem not_mem_roundSet_later {E : Type} {e : E} {L : List (Listener E)} {l : Listener E}
    {r r' : Nat} (hrr : r < r') (hnot : isRetry (l.func e r) = false) :
    l ∉ roundSet e L r' := by
  intro hmem
  have hall := ((mem_roundSet e L l r').mp hmem).2 r hrr
  rw [hnot] at hall
  cases hall

theorem mem_removeIds {E : Type} (l : Listener E) :
    ∀ (ids : List ListenerID) (set : List (Listener E)),
      l ∈ removeIds set ids ↔ l ∈ set ∧ l.id ∉ ids := by
  intro ids
  induction ids with
  | nil => intro s; simp [removeIds]
  | cons i ids ih =>
    intro s
    rw [show removeIds s (i :: ids) = removeIds (s.filter fun l => l.id ≠ i) ids from rfl, ih]
    simp only [List.mem_filter, decide_eq_true_eq, List.mem_cons]
    constructor
    · rintro ⟨⟨hs, hne⟩, hnin⟩
      exact ⟨hs, fun hc => hc.elim hne hnin⟩
    · rintro ⟨hs, hnin⟩
      exact ⟨⟨hs, fun hc => hnin (Or.inl hc)⟩, fun hc => hnin (Or.inr hc)⟩

/-! ## Characterizing `handle_iter` by rounds -/

theorem handle_iter_mem {E : Type} (e : E) (L : List (Listener E)) :
    ∀ (fuel r0 : Nat) (R : List ListenerID),
      handle_iter e fuel r0 (roundSet e L r0) = some R →
      ∀ i : ListenerID,
        i ∈ R ↔ ∃ k, ∃ l ∈ roundSet e L (r0 + k),
          isRemove (l.func e (r0 + k)) = true ∧ l.id = i := by
  intro fuel
  induction fuel with
  | zero =>
    intro r0 R h
    simp [handle_iter] at h
  | succ fuel ih =>
    intro r0 R h i
    rw [handle_iter] at h
    by_cases hE : ((roundSet e L r0).filter fun l => isRetry (l.func e r0)).isEmpty
    · rw [if_pos hE] at h
      injection h with hR
      subst hR
      constructor
      · intro hi
        rcases List.mem_map.mp hi with ⟨l, hl, hid⟩
        rcases List.mem_filter.mp hl with ⟨hmem, hrem⟩
        exact ⟨0, l, hmem, hrem, hid⟩
      · rintro ⟨k, l, hmem, hrem, hid⟩
        cases k with
        | zero =>
          subst hid
          exact List.mem_map.mpr ⟨l, List.mem_filter.mpr ⟨hmem, hrem⟩, rfl⟩
        | succ j =>
          exfalso
          have h1 : roundSet e L (r0 + 1) = [] := by
            rw [roundSet_succ]; exact List.isEmpty_iff.mp hE
          have h2 : roundSet e L (r0 + (j + 1)) = [] :=
            roundSet_empty_of_le e L h1 (by omega)
          rw [h2] at hmem
          cases hmem
    · rw [if_neg hE] at h
      rcases Option.map_eq_some'.mp h with ⟨R', hR', hRR⟩
      subst hRR
      rw [← roundSet_succ] at hR'
      have hiff := ih (r0 + 1) R' hR' i
      constructor
      · intro hi
        rcases List.mem_append.mp hi with hi | hi
        · rcases List.mem_map.mp hi with ⟨l, hl, hid⟩
          rcases List.mem_filter.mp hl with ⟨hmem, hrem⟩
          exact ⟨0, l, hmem, hrem, hid⟩
        · rcases hiff.mp hi with ⟨k, l, hmem, hrem, hid⟩
          refine ⟨k + 1, l, ?_, ?_, hid⟩
          · rw [show r0 + (k + 1) = r0 + 1 + k from by omega]; exact hmem
          · rw [show r0 + (k + 1) = r0 + 1 + k from by omega]; exact hrem
      · rintro ⟨k, l, hmem, hrem, hid⟩
        cases k with
        | zero =>
          exact List.mem_append.mpr
            (Or.inl (List.mem_map.mpr ⟨l, List.mem_filter.mpr ⟨hmem, hrem⟩, hid⟩))
        | succ j =>
          refine List.mem_append.mpr (Or.inr (hiff.mpr ⟨j, l, ?_, ?_, hid⟩))
          · rw [show r0 + 1 + j = r0 + (j + 1) from by omega]; exact hmem
          · rw [show r0 + 1 + j = r0 + (j + 1) from by omega]; exact hrem

theorem handle_iter_some_empty {E : Type} (e : E) (L : List (Listener E)) :
    ∀ (fuel r0 : Nat) (R : List ListenerID),
      handle_iter e fuel r0 (roundSet e L r0) = some R →
      ∃ n, r0 ≤ n ∧ n < r0 + fuel ∧ roundSet e L (n + 1) = [] := by
  intro fuel
  induction fuel with
  | zero =>
    intro r0 R h
    simp [handle_iter] at h
  | succ fuel ih =>
    intro r0 R h
    rw [handle_iter] at h
    by_cases hE : ((roundSet e L r0).filter fun l => isRetry (l.func e r0)).isEmpty
    · exact ⟨r0, le_refl r0, by omega, by rw [roundSet_succ]; exact List.isEmpty_iff.mp hE⟩
    · rw [if_neg hE] at h
      rcases Option.map_eq_some'.mp h with ⟨R', hR', _⟩
      rw [← roundSet_succ] at hR'
      obtain ⟨n, hn1, hn2, hn3⟩ := ih (r0 + 1) R' hR'
      exact ⟨n, by omega, by omega, hn3⟩

theorem handle_iter_total {E : Type} (e : E) :
    ∀ (n r0 : Nat) (T : List (Listener E)),
      (∀ l ∈ T, ∀ r, r0 + n ≤ r → isRetry (l.func e r) = false) →
      ∃ R, handle_iter e (n + 1) r0 T = some R := by
  intro n
  induction n with
  | zero =>
    intro r0 T hT
    have hfil : T.filter (fun l => isRetry (l.func e r0)) = [] := by
      rw [List.filter_eq_nil_iff]
      intro l hl
      rw [hT l hl r0 (by omega)]
      simp
    refine ⟨(T.filter fun l => isRemove (l.func e r0)).map (·.id), ?_⟩
    rw [handle_iter, hfil]
    rfl
  | succ n ih =>
    intro r0 T hT
    by_cases hE : (T.filter fun l => isRetry (l.func e r0)).isEmpty
    · exact ⟨_, by rw [handle_iter, if_pos hE]⟩
    · obtain ⟨R, hR⟩ := ih (r0 + 1) (T.filter fun l => isRetry (l.func e r0))
        (fun l hl r hr => hT l (List.mem_filter.mp hl).1 r (by omega))
      exact ⟨_, by rw [handle_iter, if_neg hE, hR]; rfl⟩

theorem exists_uniform_bound {E : Type} (e : E) (T : List (Listener E))
    (h : ∀ l ∈ T, ∃ B, ∀ r, B ≤ r → isRetry (l.func e r) = false) :
    ∃ B, ∀ l ∈ T, ∀ r, B ≤ r → isRetry (l.func e r) = false := by
  induction T with
  | nil => exact ⟨0, fun l hl => absurd hl (List.not_mem_nil l)⟩
  | cons x xs ih =>
    obtain ⟨Bx, hBx⟩ := h x (List.mem_cons_self x xs)
    obtain ⟨B, hB⟩ := ih fun l hl => h l (List.mem_cons_of_mem x hl)
    refine ⟨max Bx B, fun l hl r hr => ?_⟩
    rcases List.mem_cons.mp hl with rfl | hl'
    · exact hBx r (le_trans (le_max_left _ _) hr)
    · exact hB l hl' r (le_trans (le_max_right _ _) hr)

theorem handle_iter_none_of_starved {E : Type} (e : E) (l : Listener E)
    (hl : ∀ r, l.func e r = ListenResult.err ListenError.lockUnavailable) :
    ∀ (fuel r0 : Nat) (T : List (Listener E)), l ∈ T →
      handle_iter e fuel r0 T = none := by
  intro fuel
  induction fuel with
  | zero => intro r0 T _; rfl
  | succ fuel ih =>
    intro r0 T hmem
    have hfl : l ∈ T.filter fun l' => isRetry (l'.func e r0) :=
      List.mem_filter.mpr ⟨hmem, by rw [hl r0]; rfl⟩
    have hne : ¬(T.filter fun l' => isRetry (l'.func e r0)).isEmpty = true := by
      intro hEq
      rw [List.isEmpty_iff.mp hEq] at hfl
      cases hfl
    rw [handle_iter, if_neg hne, ih (r0 + 1) _ hfl]
    rfl

/-! ## Lifting to `handle` -/

theorem handle_eq_some {E : Type} {h h' : EventHandler E} {e : E} {fuel : Nat}
    (hh : h.handle e fuel = some h') :
    ∃ R, handle_iter e fuel 0 h.set = some R ∧
      h'.set = removeIds h.set R ∧ h'.next_id = h.next_id := by
  rcases Option.map_eq_some'.mp hh with ⟨R, hR, hmk⟩
  exact ⟨R, hR, by rw [← hmk], by rw [← hmk]⟩

theorem mem_handle_set {E : Type} {h h' : EventHandler E} {e : E} {fuel : Nat}
    (hh : h.handle e fuel = some h') (l : Listener E) :
    l ∈ h'.set ↔ l ∈ h.set ∧
      ¬ ∃ k, ∃ l' ∈ roundSet e h.set k, isRemove (l'.func e k) = true ∧ l'.id = l.id := by
  obtain ⟨R, hR, hset, _⟩ := handle_eq_some hh
  have hR0 : handle_iter e fuel 0 (roundSet e h.set 0) = some R := by
    rw [roundSet_zero]; exact hR
  have hmem := handle_iter_mem e h.set fuel 0 R hR0 l.id
  simp only [Nat.zero_add] at hmem
  rw [hset, mem_removeIds, hmem]

theorem mem_handle_set_of_nodup {E : Type} {h h' : EventHandler E} {e : E} {fuel : Nat}
    (hnd : (h.set.map (·.id)).Nodup) (hh : h.handle e fuel = some h')
    {l : Listener E} (hl : l ∈ h.set) :
    l ∈ h'.set ↔ ¬ permanentlyFails e h.set l := by
  rw [mem_handle_set hh l, permanentlyFails]
  constructor
  · rintro ⟨_, hno⟩ ⟨r, hmem, hrem⟩
    exact hno ⟨r, l, hmem, hrem, rfl⟩
  · intro hno
    refine ⟨hl, ?_⟩
    rintro ⟨k, l', hmem', hrem', hid⟩
    have hl' : l' ∈ h.set := roundSet_subset e h.set k l' hmem'
    have heq : l' = l := List.inj_on_of_nodup_map hnd hl' hl hid
    subst heq
    exact hno ⟨k, hmem', hrem'⟩

/-! ## More helpers: successes, removals as filters, insertion, ids -/

theorem not_mem_roundSet_of_ok {E : Type} {e : E} {L : List (Listener E)} {l : Listener E}
    {r r' : Nat} (hok : l.func e r = ListenResult.ok) (hrr : r < r') :
    l ∉ roundSet e L r' :=
  not_mem_roundSet_later hrr (by rw [hok]; rfl)

theorem not_mem_roundSet_of_deleted {E : Type} {e : E} {L : List (Listener E)} {l : Listener E}
    {r r' : Nat} (hdel : l.func e r = ListenResult.err ListenError.requirementDeleted)
    (hrr : r < r') : l ∉ roundSet e L r' :=
  not_mem_roundSet_later hrr (by rw [hdel]; rfl)

theorem succeedsAt_unique {E : Type} {e : E} {L : List (Listener E)} {l : Listener E}
    {r r' : Nat} (h1 : succeedsAt e L l r) (h2 : succeedsAt e L l r') : r' = r := by
  rcases lt_trichotomy r r' with hlt | heq | hgt
  · exact absurd h2.1 (not_mem_roundSet_of_ok h1.2 hlt)
  · exact heq.symm
  · exact absurd h1.1 (not_mem_roundSet_of_ok h2.2 hgt)

theorem removeIds_eq_filter {E : Type} :
    ∀ (ids : List ListenerID) (set : List (Listener E)),
      removeIds set ids = set.filter fun l => !(idMem l.id ids) := by
  intro ids
  induction ids with
  | nil => intro s; simp [removeIds, idMem]
  | cons i ids ih =>
    intro s
    rw [show removeIds s (i :: ids) = removeIds (s.filter fun l => l.id ≠ i) ids from rfl, ih,
      List.filter_filter]
    apply List.filter_congr
    intro l _
    simp [idMem, decide_not, Bool.and_comm]

theorem mem_insertListener {E : Type} (l x : Listener E) :
    ∀ s : List (Listener E), x ∈ insertListener l s → x = l ∨ x ∈ s := by
  intro s
  induction s with
  | nil =>
    intro hx
    rcases List.mem_singleton.mp hx with rfl
    exact Or.inl rfl
  | cons y ys ih =>
    intro hx
    rw [insertListener] at hx
    by_cases hy : y.id = l.id
    · rw [if_pos hy] at hx
      rcases List.mem_cons.mp hx with rfl | hx'
      · exact Or.inl rfl
      · exact Or.inr (List.mem_cons_of_mem y hx')
    · rw [if_neg hy] at hx
      rcases List.mem_cons.mp hx with rfl | hx'
      · exact Or.inr (List.mem_cons_self x ys)
      · rcases ih hx' with h | h
        · exact Or.inl h
        · exact Or.inr (List.mem_cons_of_mem y h)

theorem insertListener_of_fresh {E : Type} (l : Listener E) :
    ∀ s : List (Listener E), (∀ x ∈ s, x.id ≠ l.id) → insertListener l s = s ++ [l] := by
  intro s
  induction s with
  | nil => intro; rfl
  | cons y ys ih =>
    intro hfresh
    rw [insertListener, if_neg (hfresh y (List.mem_cons_self y ys)),
      ih fun x hx => hfresh x (List.mem_cons_of_mem y hx)]
    rfl

theorem insertListener_replace {E : Type} (l x : Listener E) (hx : x.id = l.id) :
    ∀ pre post : List (Listener E), (∀ y ∈ pre, y.id ≠ l.id) →
      insertListener l (pre ++ x :: post) = pre ++ l :: post := by
  intro pre
  induction pre with
  | nil => intro post _; rw [List.nil_append, insertListener, if_pos hx]; rfl
  | cons y ys ih =>
    intro post hpre
    rw [List.cons_append, insertListener, if_neg (hpre y (List.mem_cons_self y ys)),
      ih post fun z hz => hpre z (List.mem_cons_of_mem y hz)]
    rfl

theorem handle_getD_next_id {E : Type} (h : EventHandler E) (e : E) (fuel : Nat) :
    ((h.handle e fuel).getD h).next_id = h.next_id := by
  cases hh : h.handle e fuel with
  | none => rfl
  | some h' =>
    obtain ⟨_, _, _, hnid⟩ := handle_eq_some hh
    simpa using hnid

theorem wrapI64_eq_self {n : Int} (hlo : -(2 ^ 63) ≤ n) (hhi : n ≤ 2 ^ 63 - 1) :
    wrapI64 n = n := by
  rw [wrapI64, Int.emod_eq_of_lt (by omega) (by omega)]
  omega

theorem runOps_ids_bounded {E : Type} :
    ∀ (ops : List (Op E)) (h : EventHandler E),
      -(2 ^ 63) ≤ h.next_id → h.next_id + (countNewId ops : Int) ≤ 2 ^ 63 - 1 →
      (runOps h ops).1.next_id = h.next_id + (countNewId ops : Int) ∧
      (∀ i ∈ (runOps h ops).2, h.next_id ≤ i ∧ i < (runOps h ops).1.next_id) ∧
      List.Pairwise (· < ·) (runOps h ops).2 := by
  intro ops
  induction ops with
  | nil =>
    intro h _ _
    refine ⟨by simp [runOps, countNewId], ?_, List.Pairwise.nil⟩
    intro i hi
    cases hi
  | cons op ops ih =>
    intro h hlo hhi
    have hc : (0 : Int) ≤ (countNewId ops : Int) := Int.ofNat_nonneg _
    cases op with
    | newIdOp =>
      simp only [countNewId] at hhi
      push_cast at hhi
      have hnid : (applyOp h (Op.newIdOp : Op E)).1.next_id = h.next_id + 1 := by
        rw [show (applyOp h (Op.newIdOp : Op E)).1.next_id = wrapI64 (h.next_id + 1) from rfl]
        exact wrapI64_eq_self (by linarith) (by linarith)
      obtain ⟨ih1, ih2, ih3⟩ := ih (applyOp h (Op.newIdOp : Op E)).1
        (by rw [hnid]; linarith) (by rw [hnid]; linarith)
      rw [hnid] at ih1 ih2
      refine ⟨?_, ?_, ?_⟩
      · show (runOps (applyOp h (Op.newIdOp : Op E)).1 ops).1.next_id
          = h.next_id + (countNewId (Op.newIdOp :: ops) : Int)
        simp only [countNewId]
        push_cast
        linarith
      · show ∀ i ∈ h.next_id :: (runOps (applyOp h (Op.newIdOp : Op E)).1 ops).2,
          h.next_id ≤ i ∧ i < (runOps (applyOp h (Op.newIdOp : Op E)).1 ops).1.next_id
        intro i hi
        rcases List.mem_cons.mp hi with rfl | hi2
        · refine ⟨le_refl _, ?_⟩
          rw [ih1]
          linarith
        · exact ⟨by linarith [(ih2 i hi2).1], (ih2 i hi2).2⟩
      · show List.Pairwise (· < ·)
          (h.next_id :: (runOps (applyOp h (Op.newIdOp : Op E)).1 ops).2)
        refine List.Pairwise.cons ?_ ih3
        intro j hj
        have hj1 := (ih2 j hj).1
        linarith
    | insertOp l =>
      simp only [countNewId] at hhi ⊢
      have hnid : (applyOp h (Op.insertOp l)).1.next_id = h.next_id := rfl
      obtain ⟨ih1, ih2, ih3⟩ := ih (applyOp h (Op.insertOp l)).1
        (by rw [hnid]; exact hlo) (by rw [hnid]; exact hhi)
      rw [hnid] at ih1 ih2
      exact ⟨ih1, fun i hi => ih2 i hi, ih3⟩
    | handleOp e fuel =>
      simp only [countNewId] at hhi ⊢
      have hnid : (applyOp h (Op.handleOp e fuel)).1.next_id = h.next_id := by
        rw [show (applyOp h (Op.handleOp e fuel)).1 = (h.handle e fuel).getD h from rfl,
          handle_getD_next_id]
      obtain ⟨ih1, ih2, ih3⟩ := ih (applyOp h (Op.handleOp e fuel)).1
        (by rw [hnid]; exact hlo) (by rw [hnid]; exact hhi)
      rw [hnid] at ih1 ih2
      exact ⟨ih1, fun i hi => ih2 i hi, ih3⟩

/-! ## Lemmas about the capability-acquisition model -/

theorem acquireAll_append {α : Type} :
    ∀ (pre rest : List (Capability α)), (∀ c ∈ pre, capOk c = true) →
      acquireAll (pre ++ rest) =
        match acquireAll rest with
        | .ok gs => .ok (pre.filterMap capGuard ++ gs)
        | .error err => .error err := by
  intro pre
  induction pre with
  | nil =>
    intro rest _
    rw [List.nil_append]
    cases acquireAll rest <;> simp
  | cons c cs ih =>
    intro rest hok
    have hc := hok c (List.mem_cons_self c cs)
    cases hct : c.target with
    | none => simp [capOk, hct] at hc
    | some sv =>
      obtain ⟨s, v⟩ := sv
      simp only [capOk, hct] at hc
      rw [List.cons_append]
      simp only [acquireAll, hct, hc, if_true]
      rw [ih rest fun x hx => hok x (List.mem_cons_of_mem c hx)]
      cases acquireAll rest with
      | ok gs => simp [List.filterMap_cons, capGuard, hct]
      | error err => rfl

theorem acquireAll_all_ok {α : Type} (caps : List (Capability α))
    (hok : ∀ c ∈ caps, capOk c = true) :
    acquireAll caps = Except.ok (caps.filterMap capGuard) := by
  have hA := acquireAll_append caps [] hok
  rw [List.append_nil, show acquireAll ([] : List (Capability α)) = Except.ok [] from rfl] at hA
  simpa using hA

theorem acquireAll_ok_capOk {α : Type} :
    ∀ (caps : List (Capability α)) (gs : List (Mode × α)),
      acquireAll caps = Except.ok gs → ∀ c ∈ caps, capOk c = true := by
  intro caps
  induction caps with
  | nil => intro gs _ c hc; cases hc
  | cons c cs ih =>
    intro gs hgs x hx
    cases hct : c.target with
    | none => simp [acquireAll, hct] at hgs
    | some sv =>
      obtain ⟨s, v⟩ := sv
      by_cases htry : tryAcquire c.mode s = true
      · simp only [acquireAll, hct, htry, if_true] at hgs
        cases hcs : acquireAll cs with
        | ok gs2 =>
          rcases List.mem_cons.mp hx with rfl | hx2
          · simp [capOk, hct, htry]
          · exact ih gs2 hcs x hx2
        | error err => rw [hcs] at hgs; cases hgs
      · rw [show acquireAll (c :: cs)
            = if tryAcquire c.mode s then
                match acquireAll cs with
                | .ok gs => .ok ((c.mode, v) :: gs)
                | .error err => .error err
              else .error .lockUnavailable from by rw [acquireAll, hct]] at hgs
        rw [if_neg htry] at hgs
        cases hgs

/-! ## Lemmas about the legacy dispatcher -/

theorem legacyRemoveIds_eq_filter {E : Type} :
    ∀ (ids : List ListenerID) (set : List (LegacyListener E)),
      legacyRemoveIds set ids = set.filter fun l => !(idMem l.id ids) := by
  intro ids
  induction ids with
  | nil => intro s; simp [legacyRemoveIds, idMem]
  | cons i ids ih =>
    intro s
    rw [show legacyRemoveIds s (i :: ids)
        = legacyRemoveIds (s.filter fun l => l.id ≠ i) ids from rfl, ih, List.filter_filter]
    apply List.filter_congr
    intro l _
    simp [idMem, decide_not, Bool.and_comm]

theorem filter_map_toLegacy {E : Type} (p : LegacyListener E → Bool) (s : List (Listener E)) :
    (s.map toLegacy).filter p = (s.filter fun l => p (toLegacy l)).map toLegacy :=
  List.filter_map toLegacy s

/-! ## Claim theorems -/

/-- C1: a terminating `EventHandler::handle(e)` call proceeds in rounds:
round 0 attempts the whole listener set, round `r + 1` re-attempts, against
the same event value `e`, exactly the round-`r` listeners whose attempt hit
`LockUnavailable`; the rounds continue until the retry set is empty, which
happens within the call; and a listener survives in the map iff no round
produced a `RequirementDeleted` outcome for its id — i.e. exactly the
accumulated permanent-failure ids are deleted after the rounds finish. -/
theorem claim_C1_dispatch_rounds {E : Type} (h h' : EventHandler E) (e : E) (fuel : Nat)
    (hh : h.handle e fuel = some h') :
    (roundSet e h.set 0 = h.set ∧
      ∀ r, roundSet e h.set (r + 1) =
        (roundSet e h.set r).filter fun l => isRetry (l.func e r)) ∧
    (∃ n, n < fuel ∧ roundSet e h.set (n + 1) = []) ∧
    (∀ l : Listener E,
      l ∈ h'.set ↔ l ∈ h.set ∧
        ¬ ∃ k, ∃ l' ∈ roundSet e h.set k, isRemove (l'.func e k) = true ∧ l'.id = l.id) := by
  refine ⟨⟨rfl, fun r => roundSet_succ e h.set r⟩, ?_, fun l => mem_handle_set hh l⟩
  obtain ⟨R, hR, _, _⟩ := handle_eq_some hh
  have hR0 : handle_iter e fuel 0 (roundSet e h.set 0) = some R := by
    rw [roundSet_zero]; exact hR
  obtain ⟨n, _, hn2, hn3⟩ := handle_iter_some_empty e h.set fuel 0 R hR0
  exact ⟨n, by omega, hn3⟩

/-- Witness for C1 on a concrete three-listener dispatch. -/
theorem claim_C1_witness :
    ∃ n, n < 3 ∧ roundSet () sampleHandler.set (n + 1) = [] :=
  (claim_C1_dispatch_rounds sampleHandler ⟨3, [⟨0, fOk⟩, ⟨2, fLockThenOk⟩]⟩ () 3 rfl).2.1

/-- C2: in a terminating `handle` call over distinct listener ids, a
listener is removed iff one of its attempts in that call returned
`RequirementDeleted` (some declared weak reference failed to upgrade); an
attempt returning `LockUnavailable` never removes the listener — it puts it
in the next round's attempt set instead. -/
theorem claim_C2_removal_iff_requirement_deleted {E : Type} (h h' : EventHandler E)
    (e : E) (fuel : Nat) (hnd : (h.set.map (·.id)).Nodup)
    (hh : h.handle e fuel = some h') :
    ∀ l ∈ h.set,
      (l ∉ h'.set ↔ ∃ r, l ∈ roundSet e h.set r ∧
          l.func e r = ListenResult.err ListenError.requirementDeleted) ∧
      (∀ r, l ∈ roundSet e h.set r →
        l.func e r = ListenResult.err ListenError.lockUnavailable →
        l ∈ roundSet e h.set (r + 1)) := by
  intro l hl
  constructor
  · have h1 : l ∉ h'.set ↔ permanentlyFails e h.set l := by
      rw [mem_handle_set_of_nodup hnd hh hl]
      exact not_not
    rw [h1, permanentlyFails]
    apply exists_congr
    intro r
    exact and_congr_right fun _ => isRemove_iff (l.func e r)
  · intro r hmem hfun
    rw [roundSet_succ]
    exact List.mem_filter.mpr ⟨hmem, by rw [hfun]; rfl⟩

/-- Witness for C2: the permanently failed listener of the sample dispatch
is indeed removed. -/
theorem claim_C2_witness :
    (⟨1, fDel⟩ : Listener Unit) ∉ (⟨3, [⟨0, fOk⟩, ⟨2, fLockThenOk⟩]⟩ : EventHandler Unit).set :=
  ((claim_C2_removal_iff_requirement_deleted sampleHandler
      ⟨3, [⟨0, fOk⟩, ⟨2, fLockThenOk⟩]⟩ () 3 (by decide) rfl ⟨1, fDel⟩
      (List.mem_cons_of_mem _ (List.mem_cons_self _ _))).1).mpr
    ⟨0, List.mem_cons_of_mem _ (List.mem_cons_self _ _), rfl⟩

/-- C4: in a terminating `handle` call over distinct listener ids, every
registered listener is attempted at least once (the call processes at least
one round, whose attempt set is the whole listener set); after the call
exactly the permanently-failed subset has been removed; a listener that
succeeds at some round is never attempted at a later round, succeeds at
exactly one round, and survives; and the listener set is mutated by
removals only. -/
theorem claim_C4_fanout_completeness {E : Type} (h h' : EventHandler E) (e : E) (fuel : Nat)
    (hnd : (h.set.map (·.id)).Nodup) (hh : h.handle e fuel = some h') :
    1 ≤ fuel ∧
    (∀ l ∈ h.set, l ∈ roundSet e h.set 0) ∧
    (∀ l ∈ h.set, (l ∉ h'.set ↔ permanentlyFails e h.set l)) ∧
    (∀ l ∈ h.set, ∀ r, succeedsAt e h.set l r →
      (∀ r', r < r' → l ∉ roundSet e h.set r') ∧
      (∀ r', succeedsAt e h.set l r' → r' = r) ∧
      l ∈ h'.set) ∧
    (∀ l ∈ h'.set, l ∈ h.set) := by
  refine ⟨?_, fun l hl => hl, ?_, ?_, fun l hl => ((mem_handle_set hh l).mp hl).1⟩
  · cases fuel with
    | zero => simp [EventHandler.handle, handle_iter] at hh
    | succ n => omega
  · intro l hl
    rw [show (l ∉ h'.set) = ¬(l ∈ h'.set) from rfl, mem_handle_set_of_nodup hnd hh hl]
    exact not_not
  · intro l hl r hsucc
    have hnever : ∀ r', r < r' → l ∉ roundSet e h.set r' :=
      fun r' hr' => not_mem_roundSet_of_ok hsucc.2 hr'
    refine ⟨hnever, fun r' hs' => succeedsAt_unique hsucc hs', ?_⟩
    rw [mem_handle_set_of_nodup hnd hh hl]
    rintro ⟨r2, hmem2, hrem2⟩
    have hdel2 := (isRemove_iff _).mp hrem2
    rcases lt_trichotomy r r2 with hlt | heq | hgt
    · exact hnever r2 hlt hmem2
    · rw [← heq, hsucc.2] at hdel2; cases hdel2
    · exact not_mem_roundSet_of_deleted hdel2 hgt hsucc.1

/-- Witness for C4: the always-succeeding listener of the sample dispatch
survives the call. -/
theorem claim_C4_witness :
    (⟨0, fOk⟩ : Listener Unit) ∈ (⟨3, [⟨0, fOk⟩, ⟨2, fLockThenOk⟩]⟩ : EventHandler Unit).set :=
  ((claim_C4_fanout_completeness sampleHandler ⟨3, [⟨0, fOk⟩, ⟨2, fLockThenOk⟩]⟩ () 3
      (by decide) rfl).2.2.2.1 ⟨0, fOk⟩ (List.mem_cons_self _ _) 0
      ⟨List.mem_cons_self _ _, rfl⟩).2.2

/-- C5 refutation: `next_id += 1` is `i64` arithmetic, so at
`next_id = i64::MAX` the release-profile increment wraps: two `new_id`
calls from that state return `2 ^ 63 - 1` and then `-2 ^ 63`, which is not
strictly increasing — the claim fails as stated. -/
theorem claim_C5_counterexample :
    ¬ (List.Pairwise (· < ·)
        (runOps (⟨2 ^ 63 - 1, []⟩ : EventHandler Unit) [Op.newIdOp, Op.newIdOp]).2 ∧
      (runOps (⟨2 ^ 63 - 1, []⟩ : EventHandler Unit) [Op.newIdOp, Op.newIdOp]).2.Nodup) := by
  decide

/-- C5 (amended): along any operation sequence (`new_id` / `insert` /
`handle`) on a handler whose `i64` counter does not overflow during the
sequence — it starts in range and the number of `new_id` calls keeps it at
most `i64::MAX` — the ids returned by the successive `new_id` calls are
strictly increasing, hence pairwise distinct: an id never repeats while
the counter stays in range, so listeners registered under such ids cannot
share one.  (At `i64::MAX` the release profile wraps, see the
counterexample; the debug profile aborts.) -/
theorem claim_C5_new_id_monotone {E : Type} (h : EventHandler E) (ops : List (Op E))
    (hlo : -(2 ^ 63) ≤ h.next_id)
    (hhi : h.next_id + (countNewId ops : Int) ≤ 2 ^ 63 - 1) :
    List.Pairwise (· < ·) (runOps h ops).2 ∧ (runOps h ops).2.Nodup :=
  ⟨(runOps_ids_bounded ops h hlo hhi).2.2,
    (runOps_ids_bounded ops h hlo hhi).2.2.imp ne_of_lt⟩

/-- Witness for C5 on a fresh handler and two `new_id` calls. -/
theorem claim_C5_witness :
    List.Pairwise (· < ·)
      (runOps (EventHandler.mkDefault Unit) [Op.newIdOp, Op.newIdOp]).2 ∧
    (runOps (EventHandler.mkDefault Unit) [Op.newIdOp, Op.newIdOp]).2.Nodup :=
  claim_C5_new_id_monotone (EventHandler.mkDefault Unit) [Op.newIdOp, Op.newIdOp]
    (by decide) (by decide)

/-- C6: `handle` terminates for every dispatch in which each listener hits
`LockUnavailable` at only finitely many rounds (some fuel makes the
modelled recursion return), and conversely a dispatch containing a
listener whose every attempt hits `LockUnavailable` never returns: the
recursion is `none` at every fuel. -/
theorem claim_C6_termination {E : Type} (h : EventHandler E) (e : E) :
    ((∀ l ∈ h.set,
        {r : Nat | l.func e r = ListenResult.err ListenError.lockUnavailable}.Finite) →
      ∃ fuel h', h.handle e fuel = some h') ∧
    ((∃ l ∈ h.set, ∀ r, l.func e r = ListenResult.err ListenError.lockUnavailable) →
      ∀ fuel, h.handle e fuel = none) := by
  constructor
  · intro hfin
    have hbound : ∀ l ∈ h.set, ∃ B, ∀ r, B ≤ r → isRetry (l.func e r) = false := by
      intro l hl
      obtain ⟨B, hB⟩ := (hfin l hl).bddAbove
      refine ⟨B + 1, fun r hr => ?_⟩
      cases hfr : isRetry (l.func e r) with
      | false => rfl
      | true =>
        have hmem : r ∈ {r : Nat | l.func e r = ListenResult.err ListenError.lockUnavailable} :=
          (isRetry_iff _).mp hfr
        have hrB := hB hmem
        omega
    obtain ⟨B, hB⟩ := exists_uniform_bound e h.set hbound
    obtain ⟨R, hR⟩ := handle_iter_total e B 0 h.set fun l hl r hr => hB l hl r (by omega)
    exact ⟨B + 1, ⟨h.next_id, removeIds h.set R⟩, by rw [EventHandler.handle, hR]; rfl⟩
  · rintro ⟨l, hl, hstarve⟩ fuel
    rw [EventHandler.handle, handle_iter_none_of_starved e l hstarve fuel 0 h.set hl]
    rfl

/-- Witness for C6: a listener contended only at round 0 lets the dispatch
finish, and an always-contended listener makes it spin at every fuel. -/
theorem claim_C6_witness :
    (∃ fuel h', EventHandler.handle ⟨1, [⟨0, fLockThenOk⟩]⟩ () fuel = some h') ∧
    (∀ fuel, EventHandler.handle ⟨1, [⟨0, fLock⟩]⟩ () fuel = none) := by
  constructor
  · apply (claim_C6_termination ⟨1, [⟨0, fLockThenOk⟩]⟩ ()).1
    intro l hl
    rcases List.mem_singleton.mp hl with rfl
    apply Set.Finite.subset (Set.finite_singleton 0)
    intro r hr
    simp only [Set.mem_setOf_eq, fLockThenOk] at hr
    by_cases h0 : r = 0
    · simp [h0]
    · rw [if_neg h0] at hr
      exact absurd hr (by decide)
  · exact fun fuel => (claim_C6_termination ⟨1, [⟨0, fLock⟩]⟩ ()).2
      ⟨⟨0, fLock⟩, List.mem_singleton_self _, fun r => rfl⟩ fuel

/-- C7: eviction is idempotent: a handler holding one listener generated by
`lock_data!` whose sole declared capability's backing value has been
destroyed loses that listener on the next `handle` call (the reaction
never runs, the callback being arbitrary), and a further `handle` call
leaves the listener count unchanged. -/
theorem claim_C7_eviction_idempotent {E α : Type} (nid idl : ListenerID)
    (cb : E → List (Mode × α) → Unit) (e e2 : E) :
    ∃ h' h'' : EventHandler E,
      EventHandler.handle ⟨nid, [mkLockDataListener idl (fun _ => [deadCap α]) cb]⟩ e 1
        = some h' ∧
      h'.set = [] ∧
      h'.handle e2 1 = some h'' ∧
      h''.set.length = h'.set.length := by
  refine ⟨⟨nid, []⟩, ⟨nid, []⟩, ?_, rfl, rfl, rfl⟩
  simp [EventHandler.handle, handle_iter, removeIds, mkLockDataListener, runLockData,
    acquireAll, deadCap, toListenResult, isRetry, isRemove]

/-- C8: neither error kind escapes a `handle` call: the caller only gets
the updated handler back (the Rust signature returns `()`), and each error
a listener attempt produces is consumed inside the dispatch — a
`LockUnavailable` at round `r` puts the listener into round `r + 1`'s
attempt set, and a `RequirementDeleted` ends with the listener's id absent
from the surviving map. -/
theorem claim_C8_errors_confined {E : Type} (h h' : EventHandler E) (e : E) (fuel : Nat)
    (hh : h.handle e fuel = some h') :
    (∀ l ∈ h.set, ∀ r, l ∈ roundSet e h.set r →
      l.func e r = ListenResult.err ListenError.lockUnavailable →
      l ∈ roundSet e h.set (r + 1)) ∧
    (∀ l ∈ h.set, ∀ r, l ∈ roundSet e h.set r →
      l.func e r = ListenResult.err ListenError.requirementDeleted →
      ¬ ∃ l' ∈ h'.set, l'.id = l.id) := by
  constructor
  · intro l _ r hmem hfun
    rw [roundSet_succ]
    exact List.mem_filter.mpr ⟨hmem, by rw [hfun]; rfl⟩
  · intro l _ r hmem hfun
    rintro ⟨l', hl', hid⟩
    exact ((mem_handle_set hh l').mp hl').2 ⟨r, l, hmem, by rw [hfun]; rfl, hid.symm⟩

/-- Witness for C8: no survivor of the sample dispatch carries the
permanently failed listener's id. -/
theorem claim_C8_witness :
    ¬ ∃ l' ∈ (⟨3, [⟨0, fOk⟩, ⟨2, fLockThenOk⟩]⟩ : EventHandler Unit).set,
      l'.id = (⟨1, fDel⟩ : Listener Unit).id :=
  (claim_C8_errors_confined sampleHandler ⟨3, [⟨0, fOk⟩, ⟨2, fLockThenOk⟩]⟩ () 3 rfl).2
    ⟨1, fDel⟩ (List.mem_cons_of_mem _ (List.mem_cons_self _ _)) 0
    (List.mem_cons_of_mem _ (List.mem_cons_self _ _)) rfl

/-- C3: the generated acquisition walks the declared capabilities in
declaration order: with every earlier capability upgrading and locking,
a capability whose upgrade fails yields `RequirementDeleted` whatever comes
after it; one that upgrades but whose `try_read`/`try_write` fails yields
`LockUnavailable` whatever comes after it; the user callback runs exactly
when every upgrade and try-lock succeeds, receiving the event and one
guard per field in declaration order (each guard carrying the field's
declared mode — immutable borrow for `read`, mutable for `write` — and its
value). -/
theorem claim_C3_declaration_order {E α : Type} :
    (∀ (pre post : List (Capability α)) (c : Capability α),
      (∀ x ∈ pre, capOk x = true) → c.target = none →
      acquireAll (pre ++ c :: post) = Except.error ListenError.requirementDeleted) ∧
    (∀ (pre post : List (Capability α)) (c : Capability α) (s : LockState) (v : α),
      (∀ x ∈ pre, capOk x = true) → c.target = some (s, v) → tryAcquire c.mode s = false →
      acquireAll (pre ++ c :: post) = Except.error ListenError.lockUnavailable) ∧
    (∀ (caps : List (Capability α)) (cb : E → List (Mode × α) → Unit) (e : E),
      (∀ x ∈ caps, capOk x = true) →
      runLockData caps cb e = Except.ok (cb e (caps.filterMap capGuard))) ∧
    (∀ (caps : List (Capability α)) (cb : E → List (Mode × α) → Unit) (e : E) (out : Unit),
      runLockData caps cb e = Except.ok out → ∀ x ∈ caps, capOk x = true) := by
  refine ⟨?_, ?_, ?_, ?_⟩
  · intro pre post c hpre hc
    have hcp : acquireAll (c :: post) = Except.error ListenError.requirementDeleted := by
      simp only [acquireAll, hc]
    rw [acquireAll_append pre (c :: post) hpre, hcp]
  · intro pre post c s v hpre hc htry
    have hcp : acquireAll (c :: post) = Except.error ListenError.lockUnavailable := by
      simp [acquireAll, hc, htry]
    rw [acquireAll_append pre (c :: post) hpre, hcp]
  · intro caps cb e hok
    rw [runLockData, acquireAll_all_ok caps hok]
  · intro caps cb e out hrun x hx
    cases hA : acquireAll caps with
    | ok gs => exact acquireAll_ok_capOk caps gs hA x hx
    | error err => rw [runLockData, hA] at hrun; cases hrun

/-- Witness for C3 on concrete two- and three-capability bundles. -/
theorem claim_C3_witness :
    acquireAll [(⟨Mode.read, some (LockState.free, 5)⟩ : Capability Nat), deadCap Nat,
        ⟨Mode.write, some (LockState.readLocked 1, 7)⟩]
      = Except.error ListenError.requirementDeleted ∧
    acquireAll [(⟨Mode.read, some (LockState.free, 5)⟩ : Capability Nat),
        ⟨Mode.write, some (LockState.readLocked 1, 7)⟩, deadCap Nat]
      = Except.error ListenError.lockUnavailable ∧
    runLockData [(⟨Mode.read, some (LockState.free, 5)⟩ : Capability Nat)]
      (fun (_ : Unit) (_ : List (Mode × Nat)) => ()) ()
      = Except.ok () := by
  refine ⟨?_, ?_, ?_⟩
  · exact (@claim_C3_declaration_order Unit Nat).1
      [⟨Mode.read, some (LockState.free, 5)⟩]
      [⟨Mode.write, some (LockState.readLocked 1, 7)⟩] (deadCap Nat) (by decide) rfl
  · exact (@claim_C3_declaration_order Unit Nat).2.1
      [⟨Mode.read, some (LockState.free, 5)⟩] [deadCap Nat]
      ⟨Mode.write, some (LockState.readLocked 1, 7)⟩ (LockState.readLocked 1) 7
      (by decide) rfl rfl
  · exact (@claim_C3_declaration_order Unit Nat).2.2.1
      [⟨Mode.read, some (LockState.free, 5)⟩]
      (fun (_ : Unit) (_ : List (Mode × Nat)) => ()) () (by decide)

/-- C9 refutation: the every-id-below-`next_id` invariant is not preserved
by `new_id` at every handler state: at `next_id = i64::MAX` the
release-profile increment wraps to `-2 ^ 63`, putting `next_id` below a
registered id (the debug profile aborts there instead). -/
theorem claim_C9_counterexample :
    (∀ l ∈ (⟨2 ^ 63 - 1, [⟨0, fOk⟩]⟩ : EventHandler Unit).set,
      l.id < (⟨2 ^ 63 - 1, [⟨0, fOk⟩]⟩ : EventHandler Unit).next_id) ∧
    ¬ ∀ l ∈ ((⟨2 ^ 63 - 1, [⟨0, fOk⟩]⟩ : EventHandler Unit).new_id).2.set,
        l.id < ((⟨2 ^ 63 - 1, [⟨0, fOk⟩]⟩ : EventHandler Unit).new_id).2.next_id := by
  decide

/-- C9 (amended): if every registered id is below `next_id`, the invariant
is preserved by `new_id` provided its `i64` increment does not overflow
(the counter is in range and below `i64::MAX`; at `i64::MAX` the release
profile wraps, see the counterexample, and the debug profile aborts), by
`insert` of any listener whose id is below `next_id` (in particular a
freshly allocated one), and by a terminating `handle`; moreover `insert`
with an unregistered id appends the listener without touching any other
entry, and `insert` with an already-registered id replaces exactly that
entry. -/
theorem claim_C9_id_invariant {E : Type} (h : EventHandler E)
    (hinv : ∀ l ∈ h.set, l.id < h.next_id) :
    (-(2 ^ 63) ≤ h.next_id → h.next_id + 1 ≤ 2 ^ 63 - 1 →
      ∀ l ∈ (h.new_id).2.set, l.id < (h.new_id).2.next_id) ∧
    (∀ x : Listener E, x.id < h.next_id →
      ∀ l ∈ (h.insert x).set, l.id < (h.insert x).next_id) ∧
    (∀ (e : E) (fuel : Nat) (h' : EventHandler E), h.handle e fuel = some h' →
      ∀ l ∈ h'.set, l.id < h'.next_id) ∧
    (∀ x : Listener E, (∀ y ∈ h.set, y.id ≠ x.id) → (h.insert x).set = h.set ++ [x]) ∧
    (∀ (x y : Listener E) (pre post : List (Listener E)),
      h.set = pre ++ y :: post → y.id = x.id → (∀ z ∈ pre, z.id ≠ x.id) →
      (h.insert x).set = pre ++ x :: post) := by
  refine ⟨?_, ?_, ?_, ?_, ?_⟩
  · intro hlo hhi l hl
    have hnid : (h.new_id).2.next_id = h.next_id + 1 := by
      rw [show (h.new_id).2.next_id = wrapI64 (h.next_id + 1) from rfl]
      exact wrapI64_eq_self (by linarith) (by linarith)
    rw [hnid]
    exact lt_trans (hinv l hl) (lt_add_one h.next_id)
  · intro x hx l hl
    rcases mem_insertListener x l h.set hl with rfl | hl2
    · exact hx
    · exact hinv l hl2
  · intro e fuel h' hh l hl
    obtain ⟨R, _, hset, hnid⟩ := handle_eq_some hh
    rw [hnid]
    rw [hset] at hl
    exact hinv l ((mem_removeIds l R h.set).mp hl).1
  · intro x hfresh
    exact insertListener_of_fresh x h.set hfresh
  · intro x y pre post hset hyx hpre
    rw [show (h.insert x).set = insertListener x h.set from rfl, hset]
    exact insertListener_replace x y hyx pre post hpre

/-- Witness for C9: inserting a fresh listener into the sample handler
appends it. -/
theorem claim_C9_witness :
    (sampleHandler.insert ⟨5, fOk⟩).set = sampleHandler.set ++ [⟨5, fOk⟩] :=
  (claim_C9_id_invariant sampleHandler (by decide)).2.2.2.1 ⟨5, fOk⟩ (by decide)

/-- C10: when no round-0 attempt hits `LockUnavailable`, the retry
dispatcher finishes in one round, and the legacy boolean dispatcher of
`scene/event.rs` — viewing each listener through `toLegacy`, whose `false`
means removal — produces exactly the corresponding listener map: the same
ids are removed, the same reactions run (a reaction runs iff the round-0
outcome is `ok`, which is also exactly when a dispatch round of the retry
dispatcher runs it). -/
theorem claim_C10_legacy_refinement {E : Type} (h : EventHandler E) (e : E)
    (hnl : ∀ l ∈ h.set, l.func e 0 ≠ ListenResult.err ListenError.lockUnavailable) :
    ∃ h', h.handle e 1 = some h' ∧
      (LegacyEventHandler.handle ⟨h.next_id, h.set.map toLegacy⟩ e).set
        = h'.set.map toLegacy ∧
      ((h.set.map toLegacy).filter fun l => l.func e).map (·.id)
        = (h.set.filter fun l => decide (l.func e 0 = ListenResult.ok)).map (·.id) ∧
      (∀ l ∈ h.set, (∃ r, succeedsAt e h.set l r) ↔ l.func e 0 = ListenResult.ok) := by
  have hretry0 : h.set.filter (fun l => isRetry (l.func e 0)) = [] := by
    rw [List.filter_eq_nil_iff]
    intro l hl hfr
    exact hnl l hl ((isRetry_iff _).mp hfr)
  have hone : handle_iter e 1 0 h.set
      = some ((h.set.filter fun l => isRemove (l.func e 0)).map (·.id)) := by
    rw [handle_iter, hretry0]
    rfl
  have hq : ∀ l ∈ h.set, (!((toLegacy l).func e)) = isRemove (l.func e 0) := by
    intro l hl
    cases hx : l.func e 0 with
    | ok => simp [toLegacy, hx, isRemove]
    | err er =>
      cases er with
      | requirementDeleted => simp [toLegacy, hx, isRemove]
      | lockUnavailable => exact absurd hx (hnl l hl)
  have hRleg : ((h.set.map toLegacy).filter fun l => !(l.func e)).map (·.id)
      = (h.set.filter fun l => isRemove (l.func e 0)).map (·.id) := by
    rw [filter_map_toLegacy, List.map_map, List.filter_congr hq]
    rfl
  refine ⟨⟨h.next_id,
      removeIds h.set ((h.set.filter fun l => isRemove (l.func e 0)).map (·.id))⟩,
    ?_, ?_, ?_, ?_⟩
  · rw [EventHandler.handle, hone]
    rfl
  · rw [show (LegacyEventHandler.handle ⟨h.next_id, h.set.map toLegacy⟩ e).set
        = legacyRemoveIds (h.set.map toLegacy)
            (((h.set.map toLegacy).filter fun l => !(l.func e)).map (·.id)) from rfl,
      hRleg, legacyRemoveIds_eq_filter, filter_map_toLegacy, removeIds_eq_filter]
    rfl
  · rw [filter_map_toLegacy, List.map_map]
    rfl
  · intro l hl
    constructor
    · rintro ⟨r, hmem, hok⟩
      cases r with
      | zero => exact hok
      | succ j =>
        exfalso
        have h1 : roundSet e h.set 1 = [] := by
          rw [roundSet_succ, roundSet_zero, hretry0]
        have h2 : roundSet e h.set (j + 1) = [] :=
          roundSet_empty_of_le e h.set h1 (by omega)
        rw [h2] at hmem
        cases hmem
    · intro hok
      exact ⟨0, hl, hok⟩

/-- Witness for C10: a concrete dispatch with one success and one permanent
failure removes the same id in both dispatchers. -/
theorem claim_C10_witness :
    ∃ h', EventHandler.handle (⟨2, [⟨0, fOk⟩, ⟨1, fDel⟩]⟩ : EventHandler Unit) () 1
        = some h' ∧
      (LegacyEventHandler.handle ⟨2, [(⟨0, fOk⟩ : Listener Unit),
          ⟨1, fDel⟩].map toLegacy⟩ ()).set = h'.set.map toLegacy :=
  (claim_C10_legacy_refinement ⟨2, [⟨0, fOk⟩, ⟨1, fDel⟩]⟩ () (by decide)).elim
    fun h' hp => ⟨h', hp.1, hp.2.1⟩
